import Mathlib

/-!
Shallow embedding of the two ETL scripts of this repository:
`SCD2/SCD2.py` (the SCD Type 2 temporal version manager, function scd2_demo)
and `Incremental Data Load/staging.py` (the watermark-driven incremental
load). Tables are lists of rows in physical (insertion) order; SQL NULL is
Option; SQL three-valued comparisons are Bool-valued functions that are true
only when both operands are non-NULL.
-/

namespace ETL

namespace SCD2

/-- A row of the src/staging/target tables of SCD2.py: cust_id, a nullable
phone_no (the tracked attribute), created/modified/start timestamps and a
nullable end_date. Timestamps are abstracted as naturals. -/
structure Row where
  cust_id : Nat
  phone_no : Option Nat
  created_date : Nat
  modified_date : Nat
  start_date : Nat
  end_date : Option Nat
deriving DecidableEq

/-- SQL inequality on a nullable column: `a != b` is true only when both
sides are non-NULL and the values differ. -/
def sqlNeq : Option Nat → Option Nat → Bool
  | some a, some b => a != b
  | _, _ => false

/-- The correlated subquery of Step 8 of scd2_demo:
`SELECT s.modified_date FROM staging s WHERE s.cust_id = target.cust_id AND
s.phone_no != target.phone_no` — the first staging row with the same key and
a (non-NULL) differing phone. -/
def closeMatch (staging : List Row) (t : Row) : Option Row :=
  staging.find? (fun s => s.cust_id == t.cust_id && sqlNeq s.phone_no t.phone_no)

/-- Effect of the Step 8 UPDATE on one target row: a current row (end_date
NULL) for which a differing staging row exists gets its end_date set to that
staging row's modified_date; every other row is untouched. -/
def closeRow (staging : List Row) (t : Row) : Row :=
  if t.end_date = none then
    match closeMatch staging t with
    | some s => { t with end_date := some s.modified_date }
    | none => t
  else t

/-- Step 8 of scd2_demo: `UPDATE target SET end_date = (subquery) WHERE
end_date IS NULL AND EXISTS (subquery)`. -/
def closeOut (staging target : List Row) : List Row :=
  target.map (closeRow staging)

/-- The current versions of key k: rows of the target with that key and a
NULL end_date. -/
def currentsFor (target : List Row) (k : Nat) : List Row :=
  target.filter (fun t => t.cust_id == k && t.end_date.isNone)

/-- Rows contributed by one staging row to the Step 5 / Step 9 INSERT with
its LEFT JOIN on current versions: an unmatched staging row (no current
version of its key) is inserted once via the `t.cust_id IS NULL` branch; a
matched one is inserted once per current version whose phone differs under
SQL `!=`. -/
def insertsFor (target : List Row) (s : Row) : List Row :=
  if (currentsFor target s.cust_id).isEmpty then [s]
  else
    ((currentsFor target s.cust_id).filter
      (fun t => sqlNeq t.phone_no s.phone_no)).map (fun _ => s)

/-- Steps 5 and 9 of scd2_demo: `INSERT INTO target SELECT s.* FROM staging s
LEFT JOIN target t ON s.cust_id = t.cust_id AND t.end_date IS NULL WHERE
t.cust_id IS NULL OR t.phone_no != s.phone_no`. The SELECT reads the target
as it is when the statement starts. -/
def insertNew (staging target : List Row) : List Row :=
  target ++ staging.flatMap (insertsFor target)

/-- The version-apply step of scd2_demo: Step 8 (close-out of changed current
versions) followed by Step 9 (insert of new versions). The initial load
(Step 5) is this operation on an empty target, where Step 8 is a no-op. -/
def apply_versions (staging target : List Row) : List Row :=
  insertNew staging (closeOut staging target)

/-- The staging table holds at most one row per key — guaranteed in the
script because staging is always reloaded from src, whose cust_id is its
PRIMARY KEY. -/
def keysDistinct (staging : List Row) : Prop :=
  staging.Pairwise (fun a b => a.cust_id ≠ b.cust_id)

/-- Every staging row is loaded with a NULL end_date (Steps 4 and 7). -/
def openEnded (staging : List Row) : Prop := ∀ s ∈ staging, s.end_date = none

/-- Every staging row is loaded with start_date equal to modified_date
(Steps 4 and 7). -/
def startFromModified (staging : List Row) : Prop :=
  ∀ s ∈ staging, s.start_date = s.modified_date

/-- Single-current invariant: every key has at most one current version. -/
def atMostOneCurrent (target : List Row) : Prop :=
  ∀ k, (currentsFor target k).length ≤ 1

/-- All versions of key k in the target, in physical (insertion) order. -/
def versionsFor (target : List Row) (k : Nat) : List Row :=
  target.filter (fun t => t.cust_id == k)

/-- One version directly precedes another: the earlier one is closed exactly
at the start of the later one (zero gap, zero overlap) and starts no later. -/
def linked (a b : Row) : Prop :=
  a.end_date = some b.start_date ∧ a.start_date ≤ b.start_date

/-- Contiguity invariant for key k: consecutive versions are linked (so every
version except the last is closed at exactly the next version's start) and
the last version, if any, is the open current one. -/
def versionChain (target : List Row) (k : Nat) : Prop :=
  List.Chain' linked (versionsFor target k) ∧
    ∀ r, (versionsFor target k).getLast? = some r → r.end_date = none

/-- Staging never moves backwards relative to the open versions: a staging
row's start (= the source row's modified_date) is at least the start of the
current version of its key. This is the SourceRecord invariant that
modified_date is monotonically non-decreasing per key. -/
def startsMono (staging target : List Row) : Prop :=
  ∀ s ∈ staging, ∀ t ∈ target, t.cust_id = s.cust_id → t.end_date = none →
    t.start_date ≤ s.start_date

end SCD2

namespace IncLoad

/-- A row of src_jun25: key, two tracked description columns, created and
modified timestamps (populated by the database, hence non-NULL). -/
structure SrcRec where
  col1_id : Nat
  col2_desc : String
  col3_desc : String
  created_date : Nat
  modified_date : Nat
deriving DecidableEq

/-- A row of stg_jun25 as populated by both loads, which insert only
(col1_id, col2_desc, col3_desc). -/
structure StgRec where
  col1_id : Nat
  col2_desc : String
  col3_desc : String
deriving DecidableEq

/-- A row of tgt_jun25 as populated by push_to_target_table; col1_id is the
key of its ON DUPLICATE KEY clause. -/
structure TgtRec where
  col1_id : Nat
  col2_desc : String
  col3_desc : String
deriving DecidableEq

/-- A row of control_table: table name and the two nullable watermark
columns. -/
structure CtlRow where
  table_name : String
  max_created_date : Option Nat
  max_modified_date : Option Nat
deriving DecidableEq

/-- The projection both staging loads copy from a source row. -/
def stageOf (s : SrcRec) : StgRec := ⟨s.col1_id, s.col2_desc, s.col3_desc⟩

/-- insert_data_to_staging (the full load): `INSERT INTO stg_jun25 (col1_id,
col2_desc, col3_desc) SELECT col1_id, col2_desc, col3_desc FROM src_jun25`.
No DELETE or TRUNCATE precedes the INSERT. -/
def insert_data_to_staging (stg : List StgRec) (src : List SrcRec) : List StgRec :=
  stg ++ src.map stageOf

/-- SQL strict comparison against a nullable column: `a > b` is true only
when b is non-NULL and smaller. -/
def sqlGt (a : Nat) (b : Option Nat) : Bool :=
  match b with
  | some v => v < a
  | none => false

/-- The WHERE clause of insert_into_stg: the source row's created_date
exceeds the stored max_created_date OR its modified_date exceeds the stored
max_modified_date. -/
def qualifies (s : SrcRec) (c : CtlRow) : Bool :=
  sqlGt s.created_date c.max_created_date || sqlGt s.modified_date c.max_modified_date

/-- insert_into_stg (the incremental load): `INSERT INTO stg_jun25 SELECT
s.col1_id, s.col2_desc, s.col3_desc FROM src_jun25 s JOIN control_table c ON
c.table_name = 'tgt_jun25' WHERE s.created_date > c.max_created_date OR
s.modified_date > c.max_modified_date`. One row is inserted per qualifying
(source row, matching control row) pair; nothing is cleared first. -/
def insert_into_stg (stg : List StgRec) (src : List SrcRec) (ctl : List CtlRow) :
    List StgRec :=
  stg ++ src.flatMap (fun s =>
    ((ctl.filter (fun c => c.table_name == "tgt_jun25")).filter (qualifies s)).map
      (fun _ => stageOf s))

/-- SQL MAX over a nullable column: NULLs are ignored and the MAX of an empty
set is NULL. -/
def sqlMax (l : List (Option Nat)) : Option Nat :=
  l.foldl (fun acc x =>
    match acc, x with
    | none, v => v
    | some a, none => some a
    | some a, some b => some (max a b)) none

/-- The control-table write of update_control_table_stg: `UPDATE
control_table SET max_created_date = (SELECT MAX(created_date) FROM
stg_jun25), max_modified_date = (SELECT MAX(modified_date) FROM stg_jun25)
WHERE table_name = 'tgt_jun25'`. The staging date columns (which no code in
the script ever populates) are passed as the lists of their values; the old
stored watermark is overwritten without being consulted. -/
def update_control_table_stg (ctl : List CtlRow)
    (stgCreated stgModified : List (Option Nat)) : List CtlRow :=
  ctl.map (fun c =>
    if c.table_name == "tgt_jun25" then
      { c with max_created_date := sqlMax stgCreated,
               max_modified_date := sqlMax stgModified }
    else c)

/-- update_control_table_tgt: the same unconditional overwrite, taking the
maxima over the target table's date columns. -/
def update_control_table_tgt (ctl : List CtlRow)
    (tgtCreated tgtModified : List (Option Nat)) : List CtlRow :=
  ctl.map (fun c =>
    if c.table_name == "tgt_jun25" then
      { c with max_created_date := sqlMax tgtCreated,
               max_modified_date := sqlMax tgtModified }
    else c)

/-- Does the target already contain a row with key k? -/
def hasKey (tgt : List TgtRec) (k : Nat) : Bool :=
  tgt.any (fun t => t.col1_id == k)

/-- The ON DUPLICATE KEY UPDATE branch applied to one target row. -/
def updRow (s : StgRec) (t : TgtRec) : TgtRec :=
  if t.col1_id == s.col1_id then
    { t with col2_desc := s.col2_desc, col3_desc := s.col3_desc }
  else t

/-- Effect of one staging row under `INSERT ... ON DUPLICATE KEY UPDATE`:
update the tracked columns in place when the key exists, append a new row
otherwise. -/
def upsertOne (tgt : List TgtRec) (s : StgRec) : List TgtRec :=
  if hasKey tgt s.col1_id then tgt.map (updRow s)
  else tgt ++ [⟨s.col1_id, s.col2_desc, s.col3_desc⟩]

/-- push_to_target_table: `INSERT INTO tgt_jun25 (col1_id, col2_desc,
col3_desc) SELECT col1_id, col2_desc, col3_desc FROM stg_jun25 ON DUPLICATE
KEY UPDATE col2_desc = VALUES(col2_desc), col3_desc = VALUES(col3_desc)`,
processing the staging rows in order. -/
def push_to_target_table (tgt : List TgtRec) (stg : List StgRec) : List TgtRec :=
  stg.foldl upsertOne tgt

/-- The persistent state touched by the update_control_table_stg step. -/
structure StepState where
  ctl : List CtlRow
  src : List SrcRec
  stgCreated : List (Option Nat)
  stgModified : List (Option Nat)
deriving DecidableEq

/-- First half of update_control_table_stg, up to and including its first
conn.commit(): the control-table watermark overwrite. -/
def ctlCommitWrite (st : StepState) : StepState :=
  { st with ctl := update_control_table_stg st.ctl st.stgCreated st.stgModified }

/-- Second half of update_control_table_stg: `UPDATE src_jun25 SET col2_desc
= 'Joshua', col3_desc = 'Pro player' WHERE col1_id = 4`, followed by the
second conn.commit(). -/
def srcSimWrite (st : StepState) : StepState :=
  { st with src := st.src.map (fun s =>
      if s.col1_id == 4 then
        { s with col2_desc := "Joshua", col3_desc := "Pro player" }
      else s) }

/-- The whole update_control_table_stg step when no write fails. -/
def update_control_table_stg_step (st : StepState) : StepState :=
  srcSimWrite (ctlCommitWrite st)

/-- State left behind when the second write of update_control_table_stg
fails: conn.rollback() in the except block discards only the uncommitted
source update, while the control-table overwrite was already made durable by
the first conn.commit() inside the step. -/
def update_control_table_stg_failMid (st : StepState) : StepState :=
  ctlCommitWrite st

/-- insert_data_to_staging with an injected storage error (err = some e):
the except block logs the error, rolls back the uncommitted insert and
returns normally. The second component is the error the function lets escape
to its caller — none in every case, because the except block never
re-raises. -/
def insert_data_to_staging_run (err : Option Nat) (stg : List StgRec)
    (src : List SrcRec) : List StgRec × Option Nat :=
  match err with
  | none => (insert_data_to_staging stg src, none)
  | some _ => (stg, none)

/-- push_to_target_table with an injected storage error, with the same
catch-log-rollback-and-swallow except block. -/
def push_to_target_table_run (err : Option Nat) (tgt : List TgtRec)
    (stg : List StgRec) : List TgtRec × Option Nat :=
  match err with
  | none => (push_to_target_table tgt stg, none)
  | some _ => (tgt, none)

/-- The last staging row carrying key k, if any — the value that wins under
in-order upsert processing. -/
def lastVal (stg : List StgRec) (k : Nat) : Option StgRec :=
  match stg with
  | [] => none
  | s :: rest =>
    match lastVal rest k with
    | some r => some r
    | none => if s.col1_id == k then some s else none

/-- Overwrite a target row with the last staged value of its key, when one
exists. -/
def applyLast (stg : List StgRec) (t : TgtRec) : TgtRec :=
  match lastVal stg t.col1_id with
  | some s => { t with col2_desc := s.col2_desc, col3_desc := s.col3_desc }
  | none => t

/-- The target's key column is unique — the PRIMARY KEY / UNIQUE constraint
that `ON DUPLICATE KEY UPDATE` relies on. -/
def tgtKeysDistinct (tgt : List TgtRec) : Prop :=
  tgt.Pairwise (fun a b => a.col1_id ≠ b.col1_id)

end IncLoad

end ETL

/-! ## Helper lemmas for the SCD2 version manager -/

namespace ETL.SCD2

theorem sqlNeq_self (a : Option Nat) : sqlNeq a a = false := by
  cases a <;> simp [sqlNeq]

theorem sqlNeq_symm (a b : Option Nat) : sqlNeq a b = sqlNeq b a := by
  cases a <;> cases b <;> simp [sqlNeq, bne]
  exact eq_comm

theorem closeRow_cust (stg : List Row) (t : Row) :
    (closeRow stg t).cust_id = t.cust_id := by
  unfold closeRow
  split
  · split <;> rfl
  · rfl

theorem closeRow_of_closed (stg : List Row) (t : Row) (h : ¬t.end_date = none) :
    closeRow stg t = t := by
  unfold closeRow
  rw [if_neg h]

theorem closeRow_current (stg : List Row) (t : Row)
    (h : (closeRow stg t).end_date = none) :
    closeRow stg t = t ∧ t.end_date = none ∧ closeMatch stg t = none := by
  by_cases hend : t.end_date = none
  · cases hm : closeMatch stg t with
    | none => simp [closeRow, hend, hm]
    | some s =>
      exfalso
      simp [closeRow, hend, hm] at h
  · exfalso
    rw [closeRow_of_closed stg t hend] at h
    exact hend h

theorem mem_insertsFor (T : List Row) (s r : Row) (h : r ∈ insertsFor T s) :
    r = s := by
  unfold insertsFor at h
  split at h
  · simpa using h
  · rcases List.mem_map.mp h with ⟨t, -, rfl⟩
    rfl

theorem keysDistinct_unique {stg : List Row} (hd : keysDistinct stg) {a b : Row}
    (ha : a ∈ stg) (hb : b ∈ stg) (hk : b.cust_id = a.cust_id) : b = a := by
  by_contra hne
  exact (hd.forall (fun x y h => h.symm) hb ha hne) hk

theorem closeMatch_self {stg : List Row} (hd : keysDistinct stg) {s0 : Row}
    (hs0 : s0 ∈ stg) : closeMatch stg s0 = none := by
  apply List.find?_eq_none.mpr
  intro s hs
  simp only [Bool.and_eq_true, beq_iff_eq, not_and]
  intro hkey
  rw [keysDistinct_unique hd hs0 hs hkey, sqlNeq_self]
  simp

theorem currentsFor_append (A B : List Row) (k : Nat) :
    currentsFor (A ++ B) k = currentsFor A k ++ currentsFor B k :=
  List.filter_append _ _

theorem versionsFor_append (A B : List Row) (k : Nat) :
    versionsFor (A ++ B) k = versionsFor A k ++ versionsFor B k :=
  List.filter_append _ _

theorem currentsFor_eq_filter (T : List Row) (k : Nat) :
    currentsFor T k = (versionsFor T k).filter (fun t => t.end_date.isNone) := by
  unfold currentsFor versionsFor
  rw [List.filter_filter]
  exact List.filter_congr (fun t _ => by rw [Bool.and_comm])

theorem mem_currents_closeOut {stg T : List Row} {k : Nat} {t : Row}
    (h : t ∈ currentsFor (closeOut stg T) k) :
    t ∈ currentsFor T k ∧ closeMatch stg t = none := by
  rcases List.mem_filter.mp h with ⟨hmem, hp⟩
  rcases List.mem_map.mp hmem with ⟨t0, ht0, rfl⟩
  have hcur : (closeRow stg t0).end_date = none := by
    have hp' := hp
    simp only [Bool.and_eq_true, Option.isNone_iff_eq_none] at hp'
    exact hp'.2
  obtain ⟨heq, -, hcm⟩ := closeRow_current stg t0 hcur
  rw [heq] at hp ⊢
  exact ⟨List.mem_filter.mpr ⟨ht0, hp⟩, hcm⟩

theorem length_currents_closeOut_le (stg T : List Row) (k : Nat) :
    (currentsFor (closeOut stg T) k).length ≤ (currentsFor T k).length := by
  induction T with
  | nil => simp [closeOut, currentsFor]
  | cons t T ih =>
    unfold currentsFor closeOut at ih ⊢
    rw [List.map_cons, List.filter_cons, List.filter_cons]
    by_cases hp : ((closeRow stg t).cust_id == k && (closeRow stg t).end_date.isNone) = true
    · have hcur : (closeRow stg t).end_date = none := by
        simp only [Bool.and_eq_true, Option.isNone_iff_eq_none] at hp
        exact hp.2
      obtain ⟨heq, -, -⟩ := closeRow_current stg t hcur
      have hpt : (t.cust_id == k && t.end_date.isNone) = true := by
        rw [heq] at hp
        exact hp
      rw [if_pos hp, if_pos hpt]
      simpa using ih
    · rw [if_neg hp]
      by_cases hq : (t.cust_id == k && t.end_date.isNone) = true
      · rw [if_pos hq]
        exact Nat.le_trans ih (by simp)
      · rw [if_neg hq]
        exact ih

theorem versionsFor_closeOut (stg T : List Row) (k : Nat) :
    versionsFor (closeOut stg T) k = (versionsFor T k).map (closeRow stg) := by
  induction T with
  | nil => rfl
  | cons t T ih =>
    unfold versionsFor closeOut at ih ⊢
    rw [List.map_cons, List.filter_cons, List.filter_cons]
    by_cases h : (t.cust_id == k) = true
    · have h2 : ((closeRow stg t).cust_id == k) = true := by
        rw [closeRow_cust]
        exact h
      rw [if_pos h2, if_pos h, List.map_cons, ih]
    · have h2 : ¬((closeRow stg t).cust_id == k) = true := by
        rw [closeRow_cust]
        exact h
      rw [if_neg h2, if_neg h, ih]

theorem versionsFor_flatMap_nil (T' : List Row) (stg : List Row) (k : Nat)
    (h : ∀ s ∈ stg, ¬s.cust_id = k) :
    versionsFor (stg.flatMap (insertsFor T')) k = [] := by
  induction stg with
  | nil => rfl
  | cons s stg ih =>
    rw [List.flatMap_cons, versionsFor_append]
    have h1 : versionsFor (insertsFor T' s) k = [] := by
      apply List.filter_eq_nil_iff.mpr
      intro r hr
      rw [mem_insertsFor T' s r hr]
      simpa using h s (List.mem_cons_self s stg)
    rw [h1, List.nil_append]
    exact ih (fun x hx => h x (List.mem_cons_of_mem s hx))

theorem versionsFor_insertsFor_self (T' : List Row) (s0 : Row) :
    versionsFor (insertsFor T' s0) s0.cust_id = insertsFor T' s0 := by
  apply List.filter_eq_self.mpr
  intro r hr
  rw [mem_insertsFor T' s0 r hr]
  simp

theorem versionsFor_flatMap_unique (T' : List Row) {stg : List Row} {s0 : Row}
    (hd : keysDistinct stg) (hs0 : s0 ∈ stg) :
    versionsFor (stg.flatMap (insertsFor T')) s0.cust_id = insertsFor T' s0 := by
  induction stg with
  | nil => cases hs0
  | cons s stg ih =>
    rw [List.flatMap_cons, versionsFor_append]
    rcases List.mem_cons.mp hs0 with rfl | hmem
    · rw [versionsFor_insertsFor_self]
      have hrest : versionsFor (stg.flatMap (insertsFor T')) s0.cust_id = [] := by
        apply versionsFor_flatMap_nil
        intro x hx hxk
        exact (List.pairwise_cons.mp hd).1 x hx hxk.symm
      rw [hrest, List.append_nil]
    · have hne : ¬s.cust_id = s0.cust_id :=
        (List.pairwise_cons.mp hd).1 s0 hmem
      have h1 : versionsFor (insertsFor T' s) s0.cust_id = [] := by
        apply List.filter_eq_nil_iff.mpr
        intro r hr
        rw [mem_insertsFor T' s r hr]
        simpa using hne
      rw [h1, List.nil_append]
      exact ih (List.pairwise_cons.mp hd).2 hmem

theorem closeOut_fixed {stg T1 : List Row}
    (hstable : ∀ t ∈ T1, t.end_date = none → closeMatch stg t = none) :
    closeOut stg T1 = T1 := by
  unfold closeOut
  have h : ∀ t ∈ T1, closeRow stg t = id t := by
    intro t ht
    by_cases he : t.end_date = none
    · simp [closeRow, he, hstable t ht he]
    · simp [closeRow_of_closed stg t he]
  rw [List.map_congr_left h, List.map_id]

theorem apply_versions_fixed {stg T1 : List Row}
    (hstable : ∀ t ∈ T1, t.end_date = none → closeMatch stg t = none)
    (hcov : ∀ s ∈ stg, ¬currentsFor T1 s.cust_id = []) :
    apply_versions stg T1 = T1 := by
  unfold apply_versions insertNew
  rw [closeOut_fixed hstable]
  have hins : stg.flatMap (insertsFor T1) = [] := by
    apply List.flatMap_eq_nil_iff.mpr
    intro s hs
    unfold insertsFor
    rw [if_neg (by simpa [List.isEmpty_iff] using hcov s hs)]
    have hfil : (currentsFor T1 s.cust_id).filter
        (fun t => sqlNeq t.phone_no s.phone_no) = [] := by
      apply List.filter_eq_nil_iff.mpr
      intro t ht
      have htc : t ∈ T1 ∧ (t.cust_id == s.cust_id && t.end_date.isNone) = true :=
        List.mem_filter.mp ht
      have hend : t.end_date = none := by
        have := htc.2
        simp only [Bool.and_eq_true, Option.isNone_iff_eq_none] at this
        exact this.2
      have hkey : t.cust_id = s.cust_id := by
        have := htc.2
        simp only [Bool.and_eq_true, beq_iff_eq] at this
        exact this.1
      have hcm := hstable t htc.1 hend
      have hsfalse : ¬(s.cust_id == t.cust_id && sqlNeq s.phone_no t.phone_no) = true :=
        List.find?_eq_none.mp hcm s hs
      simp only [Bool.and_eq_true, beq_iff_eq, not_and] at hsfalse
      have := hsfalse hkey.symm
      rw [sqlNeq_symm]
      simpa using this
    rw [hfil]
    rfl
  rw [hins, List.append_nil]

theorem stable_after_apply {stg T : List Row} (hd : keysDistinct stg)
    {t : Row} (ht : t ∈ apply_versions stg T) (he : t.end_date = none) :
    closeMatch stg t = none := by
  unfold apply_versions insertNew at ht
  rcases List.mem_append.mp ht with h | h
  · rcases List.mem_map.mp h with ⟨t0, ht0, rfl⟩
    obtain ⟨heq, -, hcm⟩ := closeRow_current stg t0 he
    rw [heq]
    exact hcm
  · rcases List.mem_flatMap.mp h with ⟨s, hs, hmem⟩
    rw [mem_insertsFor _ _ _ hmem]
    exact closeMatch_self hd hs

theorem covered_after_apply {stg T : List Row} (ho : openEnded stg)
    {s : Row} (hs : s ∈ stg) :
    ¬currentsFor (apply_versions stg T) s.cust_id = [] := by
  unfold apply_versions insertNew
  rw [currentsFor_append, List.append_eq_nil]
  intro hboth
  by_cases hempty : (currentsFor (closeOut stg T) s.cust_id).isEmpty
  · have hmem : s ∈ stg.flatMap (insertsFor (closeOut stg T)) := by
      apply List.mem_flatMap.mpr
      refine ⟨s, hs, ?_⟩
      unfold insertsFor
      rw [if_pos hempty]
      exact List.mem_singleton.mpr rfl
    have hcur : s ∈ currentsFor (stg.flatMap (insertsFor (closeOut stg T))) s.cust_id := by
      apply List.mem_filter.mpr
      refine ⟨hmem, ?_⟩
      simp [ho s hs]
    rw [hboth.2] at hcur
    cases hcur
  · rw [List.isEmpty_iff] at hempty
    exact hempty hboth.1

/-!
## Claim C1 — idempotence of the version-apply step

As stated ("for every staging set") the claim fails: when staging carries
two rows with the same key, scd2_demo closes both resulting current
versions and re-inserts both staging rows on every further run, so the
target keeps growing. For snapshot staging sets — at most one row per key,
open end markers, exactly what the script's own staging loads produce from
the PRIMARY-KEYed src table — idempotence holds.
-/

/-- C1 counterexample: with a staging set holding two rows for key 1,
running the version-apply step a second time with the same staging content
changes the historized target again (it grows from 2 to 4 rows), so
apply_versions is not idempotent for every staging set. -/
theorem apply_versions_not_idempotent_cex :
    apply_versions
        [⟨1, some 10, 0, 0, 0, none⟩, ⟨1, some 20, 0, 0, 0, none⟩]
        (apply_versions
          [⟨1, some 10, 0, 0, 0, none⟩, ⟨1, some 20, 0, 0, 0, none⟩] []) ≠
      apply_versions
        [⟨1, some 10, 0, 0, 0, none⟩, ⟨1, some 20, 0, 0, 0, none⟩] [] := by
  decide

/-- C1 (amended): for every staging set with at most one row per key and
NULL end markers — the shape every staging load of the script produces —
running the version-apply step a second time with the same staging content
leaves the historized target exactly as it was after the first run. -/
theorem apply_versions_idempotent (stg T : List Row)
    (hd : keysDistinct stg) (ho : openEnded stg) :
    apply_versions stg (apply_versions stg T) = apply_versions stg T :=
  apply_versions_fixed
    (fun _ ht he => stable_after_apply hd ht he)
    (fun _ hs => covered_after_apply ho hs)

/-- Witness for C1: the amended idempotence theorem applied at the concrete
one-row staging set for key 2 against a one-version target. -/
theorem apply_versions_idempotent_witness :
    apply_versions [⟨2, some 7, 0, 5, 5, none⟩]
        (apply_versions [⟨2, some 7, 0, 5, 5, none⟩] [⟨2, some 3, 0, 0, 0, none⟩]) =
      apply_versions [⟨2, some 7, 0, 5, 5, none⟩] [⟨2, some 3, 0, 0, 0, none⟩] :=
  apply_versions_idempotent [⟨2, some 7, 0, 5, 5, none⟩] [⟨2, some 3, 0, 0, 0, none⟩]
    (by unfold keysDistinct; decide) (by unfold openEnded; decide)

/-!
## Claim C2 — single-current invariant

The version-apply step preserves "at most one current version per key"
whenever staging is a snapshot (at most one row per key). The initial insert
into the historized target is the same operation on the empty target, which
satisfies the invariant trivially.
-/

theorem currentsFor_flatMap_nil (T' : List Row) (stg : List Row) (k : Nat)
    (h : ∀ s ∈ stg, ¬s.cust_id = k) :
    currentsFor (stg.flatMap (insertsFor T')) k = [] := by
  rw [currentsFor_eq_filter, versionsFor_flatMap_nil T' stg k h]
  rfl

theorem currentsFor_flatMap_unique (T' : List Row) {stg : List Row} {s0 : Row}
    (hd : keysDistinct stg) (hs0 : s0 ∈ stg) :
    currentsFor (stg.flatMap (insertsFor T')) s0.cust_id =
      (insertsFor T' s0).filter (fun t => t.end_date.isNone) := by
  rw [currentsFor_eq_filter, versionsFor_flatMap_unique T' hd hs0]

theorem atMostOneCurrent_nil : atMostOneCurrent [] := by
  intro k
  simp [currentsFor]

/-- C2: for every snapshot staging set (at most one row per key) and every
target satisfying the single-current invariant, the version-apply step of
scd2_demo — and hence also the initial insert, which is this step on the
empty target — leaves at most one current version (NULL end marker) per key
in the historized target. -/
theorem apply_versions_single_current (stg T : List Row)
    (hd : keysDistinct stg) (hT : atMostOneCurrent T) :
    atMostOneCurrent (apply_versions stg T) := by
  intro k
  unfold apply_versions insertNew
  rw [currentsFor_append, List.length_append]
  have hclose : (currentsFor (closeOut stg T) k).length ≤ 1 :=
    Nat.le_trans (length_currents_closeOut_le stg T k) (hT k)
  by_cases hks : ∃ s0 ∈ stg, s0.cust_id = k
  · obtain ⟨s0, hs0, rfl⟩ := hks
    rw [currentsFor_flatMap_unique (closeOut stg T) hd hs0]
    by_cases hempty : (currentsFor (closeOut stg T) s0.cust_id).isEmpty
    · rw [List.isEmpty_iff] at hempty
      rw [hempty]
      unfold insertsFor
      rw [if_pos (by rw [hempty]; rfl)]
      simpa using List.length_filter_le (fun t => t.end_date.isNone) [s0]
    · have hins : insertsFor (closeOut stg T) s0 = [] := by
        unfold insertsFor
        rw [if_neg hempty]
        have hfil : (currentsFor (closeOut stg T) s0.cust_id).filter
            (fun t => sqlNeq t.phone_no s0.phone_no) = [] := by
          apply List.filter_eq_nil_iff.mpr
          intro t ht
          obtain ⟨htT, hcm⟩ := mem_currents_closeOut ht
          have htk : t.cust_id = s0.cust_id := by
            have := (List.mem_filter.mp htT).2
            simp only [Bool.and_eq_true, beq_iff_eq] at this
            exact this.1
          have hsfalse :
              ¬(s0.cust_id == t.cust_id && sqlNeq s0.phone_no t.phone_no) = true :=
            List.find?_eq_none.mp hcm s0 hs0
          simp only [Bool.and_eq_true, beq_iff_eq, not_and] at hsfalse
          have := hsfalse htk.symm
          rw [sqlNeq_symm]
          simpa using this
        rw [hfil]
        rfl
      rw [hins]
      simpa using hclose
  · push_neg at hks
    rw [currentsFor_flatMap_nil (closeOut stg T) stg k hks]
    simpa using hclose

/-- Witness for C2: the single-current theorem applied to the initial insert
of a one-row staging set into the empty historized target. -/
theorem apply_versions_single_current_witness :
    atMostOneCurrent (apply_versions [⟨1, some 5, 0, 0, 0, none⟩] []) :=
  apply_versions_single_current [⟨1, some 5, 0, 0, 0, none⟩] []
    (by unfold keysDistinct; decide) atMostOneCurrent_nil

/-!
## Claim C10 — staging row against a current version with NULL attribute

The claim says rule 3 (close, then insert) still fires when the current
version's tracked attribute is NULL. It does not: both Step 8 and Step 9
compare phones with SQL `!=`, which is never true when either side is NULL,
so scd2_demo closes nothing and inserts nothing for such a key.
-/

/-- C10 counterexample: key 1 has a current version with NULL phone_no and
the staging row carries the non-NULL value 5. The claim requires the
version-apply step to close that version and insert a new one (leaving two
rows, the old one closed); instead the target is left completely unchanged. -/
theorem apply_versions_null_current_cex :
    apply_versions [⟨1, some 5, 1, 1, 1, none⟩] [⟨1, none, 0, 0, 0, none⟩]
        = [⟨1, none, 0, 0, 0, none⟩] ∧
      (apply_versions [⟨1, some 5, 1, 1, 1, none⟩] [⟨1, none, 0, 0, 0, none⟩]).length
        = 1 := by
  constructor <;> decide

/-- C10 (amended): when every current version of the staging row's key has a
NULL tracked attribute while the staging row carries a non-NULL value, the
version-apply step performs no write at all — SQL `!=` is unknown against
NULL, so neither the close-out of rule 3 nor any insert happens; rule 3
fires only when both values are non-NULL and differ. -/
theorem apply_versions_null_current_noop (s : Row) (T : List Row) (v : Nat)
    (hv : s.phone_no = some v)
    (hex : ∃ t ∈ T, t.cust_id = s.cust_id ∧ t.end_date = none)
    (hnull : ∀ t ∈ T, t.cust_id = s.cust_id → t.end_date = none →
      t.phone_no = none) :
    apply_versions [s] T = T := by
  have hstable : ∀ t ∈ T, t.end_date = none → closeMatch [s] t = none := by
    intro t ht he
    apply List.find?_eq_none.mpr
    intro x hx
    rcases List.mem_singleton.mp hx with rfl
    simp only [Bool.and_eq_true, beq_iff_eq, not_and]
    intro hkey
    have hpn : t.phone_no = none := hnull t ht hkey.symm he
    simp [hv, hpn, sqlNeq]
  have hT : closeOut [s] T = T := closeOut_fixed hstable
  unfold apply_versions insertNew
  rw [hT]
  have hcur_ne : ¬(currentsFor T s.cust_id).isEmpty = true := by
    obtain ⟨t, ht, hk, he⟩ := hex
    rw [List.isEmpty_iff]
    intro hnil
    have hmem : t ∈ currentsFor T s.cust_id :=
      List.mem_filter.mpr ⟨ht, by simp [hk, he]⟩
    rw [hnil] at hmem
    cases hmem
  have hins : insertsFor T s = [] := by
    unfold insertsFor
    rw [if_neg hcur_ne]
    have hfil : (currentsFor T s.cust_id).filter
        (fun t => sqlNeq t.phone_no s.phone_no) = [] := by
      apply List.filter_eq_nil_iff.mpr
      intro t ht
      obtain ⟨htT, hp⟩ := List.mem_filter.mp ht
      simp only [Bool.and_eq_true, beq_iff_eq, Option.isNone_iff_eq_none] at hp
      have hpn : t.phone_no = none := hnull t htT hp.1 hp.2
      simp [hpn, sqlNeq]
    rw [hfil]
    rfl
  simp [hins]

/-- Witness for the amended C10 theorem at the concrete counterexample
input. -/
theorem apply_versions_null_current_noop_witness :
    apply_versions [⟨1, some 5, 1, 1, 1, none⟩] [⟨1, none, 0, 0, 0, none⟩]
      = [⟨1, none, 0, 0, 0, none⟩] :=
  apply_versions_null_current_noop ⟨1, some 5, 1, 1, 1, none⟩
    [⟨1, none, 0, 0, 0, none⟩] 5 rfl (by decide) (by decide)

/-!
## Claim C3 — contiguity invariant

Step 8 closes the current version with the staging row's modified_date and
Step 9 inserts the new version with the staging row's start_date; the
staging loads set start_date = modified_date, so the close-out writes
exactly the timestamp the new version uses as its start. With snapshot
staging and monotone source modified timestamps, the per-key version chain
(each version closed exactly at the next version's start, starts
non-decreasing, last version open) is preserved.
-/

theorem chain_closed {l : List Row} {c : Row}
    (h : List.Chain' linked (l ++ [c])) : ∀ r ∈ l, ¬r.end_date = none := by
  induction l with
  | nil =>
    intro r hr
    cases hr
  | cons a l ih =>
    intro r hr
    rw [List.cons_append] at h
    rcases List.chain'_cons'.mp h with ⟨hhead, htail⟩
    rcases List.mem_cons.mp hr with rfl | hmem
    · cases l with
      | nil =>
        have hl := hhead c rfl
        rw [hl.1]
        simp
      | cons b l2 =>
        have hl := hhead b rfl
        rw [hl.1]
        simp
    · exact ih htail r hmem

theorem find?_eq_some_of_unique {α : Type} {p : α → Bool} {l : List α} {a : α}
    (ha : a ∈ l) (hp : p a = true) (huniq : ∀ x ∈ l, p x = true → x = a) :
    l.find? p = some a := by
  induction l with
  | nil => cases ha
  | cons b l ih =>
    by_cases hb : p b = true
    · have hba : b = a := huniq b (List.mem_cons_self b l) hb
      rw [List.find?_cons_of_pos _ hb, hba]
    · have ha2 : a ∈ l := by
        rcases List.mem_cons.mp ha with rfl | h2
        · exact absurd hp hb
        · exact h2
      rw [List.find?_cons_of_neg _ (by simpa using hb)]
      exact ih ha2 (fun x hx hpx => huniq x (List.mem_cons_of_mem b hx) hpx)

theorem closeMatch_unique {stg : List Row} (hd : keysDistinct stg) {s0 : Row}
    (hs0 : s0 ∈ stg) {c : Row} (hck : c.cust_id = s0.cust_id) :
    closeMatch stg c =
      if sqlNeq s0.phone_no c.phone_no = true then some s0 else none := by
  by_cases hneq : sqlNeq s0.phone_no c.phone_no = true
  · rw [if_pos hneq]
    apply find?_eq_some_of_unique hs0
    · simp [hck, hneq]
    · intro x hx hpx
      simp only [Bool.and_eq_true, beq_iff_eq] at hpx
      exact keysDistinct_unique hd hs0 hx (hpx.1.trans hck)
  · rw [if_neg hneq]
    apply List.find?_eq_none.mpr
    intro x hx
    simp only [Bool.and_eq_true, beq_iff_eq, not_and]
    intro hkey
    have hxs : x = s0 := keysDistinct_unique hd hs0 hx (hkey.trans hck)
    subst hxs
    simpa using hneq

/-- C3: for every snapshot staging set (distinct keys, NULL end markers,
start_date = modified_date as the staging loads produce) whose rows do not
start before the current versions they match (the SourceRecord monotonicity
invariant), the version-apply step of scd2_demo preserves the per-key
contiguity chain: in start order, every closed version's end marker equals
the next version's start marker — the close-out writes exactly the timestamp
the newly inserted version uses as its start — with zero gap, zero overlap,
and the last version open. -/
theorem apply_versions_contiguity (stg T : List Row)
    (hd : keysDistinct stg) (ho : openEnded stg) (hm : startFromModified stg)
    (hs : startsMono stg T) (hc : ∀ k, versionChain T k) :
    ∀ k, versionChain (apply_versions stg T) k := by
  intro k
  by_cases hks : ∃ s0 ∈ stg, s0.cust_id = k
  · obtain ⟨s0, hs0, rfl⟩ := hks
    have hsplit : versionsFor (apply_versions stg T) s0.cust_id =
        (versionsFor T s0.cust_id).map (closeRow stg) ++
          insertsFor (closeOut stg T) s0 := by
      unfold apply_versions insertNew
      rw [versionsFor_append, versionsFor_closeOut,
        versionsFor_flatMap_unique (closeOut stg T) hd hs0]
    by_cases hne : versionsFor T s0.cust_id = []
    · have hcur : currentsFor (closeOut stg T) s0.cust_id = [] := by
        rw [currentsFor_eq_filter, versionsFor_closeOut, hne]
        rfl
      have hins : insertsFor (closeOut stg T) s0 = [s0] := by
        unfold insertsFor
        rw [if_pos (by rw [hcur]; rfl)]
      unfold versionChain
      rw [hsplit, hne, hins]
      constructor
      · exact List.chain'_singleton s0
      · intro r hr
        have hr2 : s0 = r := by simpa using hr
        rw [← hr2]
        exact ho s0 hs0
    · obtain ⟨hchain, hlast⟩ := hc s0.cust_id
      set vs := versionsFor T s0.cust_id with hvsdef
      set c := vs.getLast hne with hcdef
      set init := vs.dropLast with hinitdef
      have hvs2 : init ++ [c] = vs := List.dropLast_append_getLast hne
      have hcend : c.end_date = none := by
        apply hlast
        rw [← hvs2]
        exact List.getLast?_concat init
      have hchain2 : List.Chain' linked (init ++ [c]) := by
        rw [hvs2]
        exact hchain
      have hinit_closed : ∀ r ∈ init, ¬r.end_date = none := chain_closed hchain2
      have hcvs : c ∈ vs := by
        rw [← hvs2]
        exact List.mem_append_right init (List.mem_singleton.mpr rfl)
      have hcmem : c ∈ T ∧ c.cust_id = s0.cust_id := by
        have h2 := List.mem_filter.mp hcvs
        exact ⟨h2.1, by simpa using h2.2⟩
      have hmap_init : init.map (closeRow stg) = init := by
        have h1 : ∀ r ∈ init, closeRow stg r = id r := fun r hr =>
          closeRow_of_closed stg r (hinit_closed r hr)
        rw [List.map_congr_left h1, List.map_id]
      have hinit_filter : init.filter (fun t => t.end_date.isNone) = [] :=
        List.filter_eq_nil_iff.mpr (fun r hr => by
          simpa [Option.isNone_iff_eq_none] using hinit_closed r hr)
      by_cases hneq : sqlNeq s0.phone_no c.phone_no = true
      · -- tracked attribute changed: close c at s0.modified_date, insert s0
        have hcm : closeMatch stg c = some s0 := by
          rw [closeMatch_unique hd hs0 hcmem.2, if_pos hneq]
        have hcc : closeRow stg c = { c with end_date := some s0.modified_date } := by
          simp [closeRow, hcend, hcm]
        have hmap : vs.map (closeRow stg) =
            init ++ [{ c with end_date := some s0.modified_date }] := by
          rw [← hvs2, List.map_append, hmap_init]
          simp [hcc]
        have hcur : currentsFor (closeOut stg T) s0.cust_id = [] := by
          rw [currentsFor_eq_filter, versionsFor_closeOut]
          rw [← hvsdef, hmap, List.filter_append, hinit_filter, List.nil_append]
          rfl
        have hins : insertsFor (closeOut stg T) s0 = [s0] := by
          unfold insertsFor
          rw [if_pos (by rw [hcur]; rfl)]
        unfold versionChain
        rw [hsplit]
        rw [hmap, hins]
        constructor
        · apply List.chain'_append.mpr
          refine ⟨?_, List.chain'_singleton s0, ?_⟩
          · apply List.chain'_append.mpr
            have horig := List.chain'_append.mp hchain2
            refine ⟨horig.1, List.chain'_singleton _, ?_⟩
            intro x hx y hy
            have hy2 : ({ c with end_date := some s0.modified_date } : Row) = y := by
              simpa using hy
            have hl := horig.2.2 x hx c rfl
            rw [← hy2]
            exact ⟨hl.1, hl.2⟩
          · intro x hx y hy
            have hy2 : s0 = y := by simpa using hy
            rw [List.getLast?_concat] at hx
            have hx2 : ({ c with end_date := some s0.modified_date } : Row) = x := by
              simpa using hx
            rw [← hx2, ← hy2]
            constructor
            · show some s0.modified_date = some s0.start_date
              rw [hm s0 hs0]
            · show c.start_date ≤ s0.start_date
              exact hs s0 hs0 c hcmem.1 hcmem.2 hcend
        · intro r hr
          rw [List.getLast?_concat] at hr
          have hr2 : s0 = r := by simpa using hr
          rw [← hr2]
          exact ho s0 hs0
      · -- tracked attribute unchanged (or NULL on either side): no write
        have hcm : closeMatch stg c = none := by
          rw [closeMatch_unique hd hs0 hcmem.2, if_neg hneq]
        have hcc : closeRow stg c = c := by
          simp [closeRow, hcend, hcm]
        have hmap : vs.map (closeRow stg) = vs := by
          rw [← hvs2, List.map_append, hmap_init]
          simp [hcc]
        have hcur : currentsFor (closeOut stg T) s0.cust_id = [c] := by
          rw [currentsFor_eq_filter, versionsFor_closeOut]
          rw [← hvsdef, hmap, ← hvs2, List.filter_append, hinit_filter,
            List.nil_append]
          simp [hcend]
        have hins : insertsFor (closeOut stg T) s0 = [] := by
          unfold insertsFor
          rw [if_neg (by rw [hcur]; simp)]
          rw [hcur]
          have hfalse : sqlNeq c.phone_no s0.phone_no = false := by
            rw [sqlNeq_symm]
            simpa using hneq
          simp [List.filter_cons, hfalse]
        unfold versionChain
        rw [hsplit]
        rw [hmap, hins, List.append_nil]
        exact ⟨hchain, hlast⟩
  · push_neg at hks
    have hver : versionsFor (apply_versions stg T) k = versionsFor T k := by
      unfold apply_versions insertNew
      rw [versionsFor_append, versionsFor_flatMap_nil (closeOut stg T) stg k hks,
        List.append_nil, versionsFor_closeOut]
      have h1 : ∀ t ∈ versionsFor T k, closeRow stg t = id t := by
        intro t ht
        by_cases he : t.end_date = none
        · have hcm : closeMatch stg t = none := by
            apply List.find?_eq_none.mpr
            intro s hsx
            simp only [Bool.and_eq_true, beq_iff_eq, not_and]
            intro hkey
            exfalso
            have htk : t.cust_id = k := by
              have h2 := (List.mem_filter.mp ht).2
              simpa using h2
            exact hks s hsx (hkey.trans htk)
          simp [closeRow, he, hcm]
        · simp [closeRow_of_closed stg t he]
      rw [List.map_congr_left h1, List.map_id]
    obtain ⟨h1, h2⟩ := hc k
    unfold versionChain
    rw [hver]
    exact ⟨h1, h2⟩

theorem versionChain_single (r : Row) (hr : r.end_date = none) (k : Nat) :
    versionChain [r] k := by
  unfold versionChain versionsFor
  rw [List.filter_cons]
  by_cases h : (r.cust_id == k) = true
  · rw [if_pos h]
    constructor
    · exact List.chain'_singleton r
    · intro x hx
      have hrx : r = x := by simpa using hx
      rw [← hrx]
      exact hr
  · rw [if_neg h]
    constructor
    · exact List.chain'_nil
    · intro x hx
      simp at hx

/-- Witness for C3: the contiguity theorem applied to a concrete one-row
staging set (key 2, phone 7, start 5) against a target holding one current
version (key 2, phone 3, start 0), exercising the close-then-insert path. -/
theorem apply_versions_contiguity_witness :
    versionChain
      (apply_versions [⟨2, some 7, 0, 5, 5, none⟩] [⟨2, some 3, 0, 0, 0, none⟩])
      2 :=
  apply_versions_contiguity [⟨2, some 7, 0, 5, 5, none⟩]
    [⟨2, some 3, 0, 0, 0, none⟩]
    (by unfold keysDistinct; decide) (by unfold openEnded; decide)
    (by unfold startFromModified; decide) (by unfold startsMono; decide)
    (fun k => versionChain_single ⟨2, some 3, 0, 0, 0, none⟩ rfl k) 2

end ETL.SCD2

namespace ETL.IncLoad

/-!
## Claim C4 — staging loads and clearing

The claim says every staging load clears the staging area first. Neither
load does: insert_data_to_staging and insert_into_stg are bare INSERTs with
no DELETE or TRUNCATE, so staging accumulates rows across loads.
-/

/-- C4 counterexample: with a leftover staging row (key 99) and an empty
source, the claim says staging ends empty after either load (the full
snapshot and the qualifying delta are both empty); instead both loads leave
the leftover row in place. -/
theorem staging_loads_never_clear_cex :
    insert_into_stg [⟨99, "old", "old"⟩] [] [⟨"tgt_jun25", some 0, some 0⟩]
        = [⟨99, "old", "old"⟩] ∧
      insert_data_to_staging [⟨99, "old", "old"⟩] [] = [⟨99, "old", "old"⟩] := by
  constructor <;> decide

/-- C4 (amended): neither staging load clears the staging area.
insert_data_to_staging appends the projection of every source row to the
existing staging content, and insert_into_stg appends the qualifying delta
rows; every row staged before the load is still in staging afterwards. -/
theorem staging_loads_append (stg : List StgRec) (src : List SrcRec)
    (ctl : List CtlRow) :
    (∀ r ∈ stg, r ∈ insert_data_to_staging stg src) ∧
      (∀ s ∈ src, stageOf s ∈ insert_data_to_staging stg src) ∧
      (∀ r ∈ stg, r ∈ insert_into_stg stg src ctl) :=
  ⟨fun _ hr => List.mem_append_left _ hr,
    fun _ hs => List.mem_append_right _ (List.mem_map_of_mem _ hs),
    fun _ hr => List.mem_append_left _ hr⟩

/-- Witness for the amended C4 theorem: the leftover row of the
counterexample survives the incremental load. -/
theorem staging_loads_append_witness :
    (⟨99, "old", "old"⟩ : StgRec) ∈
      insert_into_stg [⟨99, "old", "old"⟩] [] [⟨"tgt_jun25", some 0, some 0⟩] :=
  (staging_loads_append [⟨99, "old", "old"⟩] [] [⟨"tgt_jun25", some 0, some 0⟩]).2.2
    ⟨99, "old", "old"⟩ (by decide)

/-!
## Claim C5 — delta completeness of the incremental load
-/

/-- C5: every source row whose created_date strictly exceeds the stored
max-created watermark OR whose modified_date strictly exceeds the stored
max-modified watermark of the control row for 'tgt_jun25' — either condition
alone suffices — appears in staging after insert_into_stg. -/
theorem insert_into_stg_delta_complete (stg : List StgRec) (src : List SrcRec)
    (ctl : List CtlRow) (r : SrcRec) (c : CtlRow)
    (hr : r ∈ src) (hc : c ∈ ctl) (hname : c.table_name = "tgt_jun25")
    (hq : (∃ wc, c.max_created_date = some wc ∧ wc < r.created_date) ∨
      (∃ wm, c.max_modified_date = some wm ∧ wm < r.modified_date)) :
    stageOf r ∈ insert_into_stg stg src ctl := by
  unfold insert_into_stg
  apply List.mem_append_right
  apply List.mem_flatMap.mpr
  refine ⟨r, hr, ?_⟩
  apply List.mem_map.mpr
  refine ⟨c, ?_, rfl⟩
  apply List.mem_filter.mpr
  refine ⟨List.mem_filter.mpr ⟨hc, by simp [hname]⟩, ?_⟩
  unfold qualifies sqlGt
  rcases hq with ⟨wc, hwc, hlt⟩ | ⟨wm, hwm, hlt⟩
  · simp [hwc, hlt]
  · simp [hwm, hlt]

/-- Witness for C5: a source row modified after the stored watermark (10 > 7)
lands in staging even though its created_date does not qualify. -/
theorem insert_into_stg_delta_complete_witness :
    stageOf ⟨4, "Joshua", "Pro player", 3, 10⟩ ∈
      insert_into_stg [] [⟨4, "Joshua", "Pro player", 3, 10⟩]
        [⟨"tgt_jun25", some 7, some 7⟩] :=
  insert_into_stg_delta_complete [] [⟨4, "Joshua", "Pro player", 3, 10⟩]
    [⟨"tgt_jun25", some 7, some 7⟩] ⟨4, "Joshua", "Pro player", 3, 10⟩
    ⟨"tgt_jun25", some 7, some 7⟩ (by decide) (by decide) rfl
    (Or.inr ⟨7, rfl, by decide⟩)

/-!
## Claim C6 — watermark monotonicity

The claim says the stored watermark never decreases and that a lower
supplied value raises a RegressionError that is logged and skipped. The
code has no such check: both update_control_table_stg and
update_control_table_tgt overwrite the stored values unconditionally with
the MAX over the staging/target date columns, which can be lower than the
stored value.
-/

/-- C6 counterexample: with the stored watermark at 100 and a staging table
whose maximal dates are 5, update_control_table_stg writes 5 over 100 — the
advance is performed, not skipped, and both stored timestamps decrease. -/
theorem watermark_regression_cex :
    update_control_table_stg [⟨"tgt_jun25", some 100, some 100⟩]
        [some 5] [some 5] = [⟨"tgt_jun25", some 5, some 5⟩] ∧
      (5 : Nat) < 100 := by
  constructor <;> decide

/-- C6 (amended): both control-table updates overwrite the stored watermark
of the 'tgt_jun25' row unconditionally with the MAX over the given date
columns — the previously stored values are never consulted, there is no
regression check, and the two functions perform the identical update. -/
theorem update_control_table_overwrites (ctl : List CtlRow)
    (cs ms : List (Option Nat)) (c : CtlRow)
    (hc : c ∈ update_control_table_stg ctl cs ms)
    (hname : c.table_name = "tgt_jun25") :
    c.max_created_date = sqlMax cs ∧ c.max_modified_date = sqlMax ms ∧
      update_control_table_tgt ctl cs ms = update_control_table_stg ctl cs ms := by
  refine ⟨?_, ?_, rfl⟩ <;>
  · unfold update_control_table_stg at hc
    rcases List.mem_map.mp hc with ⟨c0, -, rfl⟩
    by_cases h : (c0.table_name == "tgt_jun25") = true
    · simp [h]
    · rw [if_neg h] at hname ⊢
      exact absurd hname (by simpa using h)

/-- Witness for the amended C6 theorem at the counterexample input: the
updated row's stored watermark equals the staging maximum 5, regardless of
the stored 100. -/
theorem update_control_table_overwrites_witness :
    (⟨"tgt_jun25", some 5, some 5⟩ : CtlRow).max_created_date = sqlMax [some 5] ∧
      (⟨"tgt_jun25", some 5, some 5⟩ : CtlRow).max_modified_date = sqlMax [some 5] ∧
      update_control_table_tgt [⟨"tgt_jun25", some 100, some 100⟩] [some 5] [some 5]
        = update_control_table_stg [⟨"tgt_jun25", some 100, some 100⟩]
            [some 5] [some 5] :=
  update_control_table_overwrites [⟨"tgt_jun25", some 100, some 100⟩]
    [some 5] [some 5] ⟨"tgt_jun25", some 5, some 5⟩ (by decide) rfl

/-!
## Claim C7 — step atomicity

update_control_table_stg commits twice inside one step: once after the
control-table overwrite and once after the simulated source update. A
failure between the two commits rolls back only the uncommitted source
update, leaving the committed control-table overwrite in place — a
partially-applied step, contradicting the claim that a failing step leaves
the state exactly as before the step began.
-/

/-- C7 counterexample: starting from a watermark of 100 with staging maxima
of 5, a failure during the second write of update_control_table_stg leaves
the state with the control table already overwritten — not the state from
before the step began. -/
theorem step_atomicity_cex :
    update_control_table_stg_failMid
        ⟨[⟨"tgt_jun25", some 100, some 100⟩], [⟨4, "a", "b", 0, 0⟩],
          [some 5], [some 5]⟩ ≠
      ⟨[⟨"tgt_jun25", some 100, some 100⟩], [⟨4, "a", "b", 0, 0⟩],
        [some 5], [some 5]⟩ := by
  decide

/-- C7 (amended): rollback in the except block restores only the writes
made since the last commit; because update_control_table_stg commits in the
middle of the step, a failure during its second write leaves a state that is
neither the pre-step state nor the completed-step state — partially-applied
state is possible. -/
theorem update_control_table_stg_partial_state :
    ∃ st : StepState,
      update_control_table_stg_failMid st ≠ st ∧
        update_control_table_stg_failMid st ≠ update_control_table_stg_step st := by
  refine ⟨⟨[⟨"tgt_jun25", some 100, some 100⟩], [⟨4, "a", "b", 0, 0⟩],
    [some 5], [some 5]⟩, ?_, ?_⟩ <;> decide

/-!
## Claim C8 — error propagation

Every step of staging.py wraps its body in try/except, and every except
block only logs and rolls back: no error is ever re-raised, so the main flow
continues with the next step as if the failed one had succeeded. This
contradicts the claim that each step re-raises with context.
-/

/-- C8 counterexample: a storage error injected into insert_data_to_staging
or push_to_target_table escapes to the caller as nothing at all — the error
output is none, not the raised error the claim requires. -/
theorem error_swallowed_cex :
    (insert_data_to_staging_run (some 7) [] []).2 = none ∧
      (push_to_target_table_run (some 7) [] []).2 = none ∧
      (none : Option Nat) ≠ some 7 := by
  refine ⟨rfl, rfl, by decide⟩

/-- C8 (amended): on any storage error, each step catches it at the step
boundary, rolls back its uncommitted writes (returning its state input
unchanged) and swallows the error — no error is re-raised to the caller;
when no error occurs the step performs its write and also raises nothing. -/
theorem steps_swallow_errors (e : Nat) (stg : List StgRec) (src : List SrcRec)
    (tgt : List TgtRec) :
    insert_data_to_staging_run (some e) stg src = (stg, none) ∧
      push_to_target_table_run (some e) tgt stg = (tgt, none) ∧
      insert_data_to_staging_run none stg src =
        (insert_data_to_staging stg src, none) ∧
      push_to_target_table_run none tgt stg =
        (push_to_target_table tgt stg, none) :=
  ⟨rfl, rfl, rfl, rfl⟩

/-!
## Claim C9 — merge/upsert correctness of push_to_target_table
-/

theorem updRow_id (s : StgRec) (t : TgtRec) : (updRow s t).col1_id = t.col1_id := by
  unfold updRow
  split <;> rfl

theorem hasKey_map_updRow (T : List TgtRec) (s : StgRec) (k : Nat) :
    hasKey (T.map (updRow s)) k = hasKey T k := by
  induction T with
  | nil => rfl
  | cons t T ih =>
    unfold hasKey at *
    rw [List.map_cons, List.any_cons, List.any_cons, updRow_id, ih]

theorem hasKey_upsertOne_of (T : List TgtRec) (s : StgRec) (k : Nat)
    (h : hasKey T k = true) : hasKey (upsertOne T s) k = true := by
  unfold upsertOne
  by_cases hk : hasKey T s.col1_id = true
  · rw [if_pos hk, hasKey_map_updRow]
    exact h
  · rw [if_neg hk]
    unfold hasKey at *
    rw [List.any_append]
    simp [h]

theorem hasKey_upsertOne_self (T : List TgtRec) (s : StgRec) :
    hasKey (upsertOne T s) s.col1_id = true := by
  unfold upsertOne
  by_cases hk : hasKey T s.col1_id = true
  · rw [if_pos hk, hasKey_map_updRow]
    exact hk
  · rw [if_neg hk]
    unfold hasKey
    rw [List.any_append]
    simp

theorem hasKey_push_of (stg : List StgRec) (T : List TgtRec) (k : Nat)
    (h : hasKey T k = true) : hasKey (push_to_target_table T stg) k = true := by
  induction stg generalizing T with
  | nil => exact h
  | cons s stg ih => exact ih (upsertOne T s) (hasKey_upsertOne_of T s k h)

theorem hasKey_push_mem (stg : List StgRec) (s : StgRec) (hs : s ∈ stg) :
    ∀ T : List TgtRec, hasKey (push_to_target_table T stg) s.col1_id = true := by
  induction stg with
  | nil => cases hs
  | cons a stg ih =>
    intro T
    rcases List.mem_cons.mp hs with rfl | hmem
    · exact hasKey_push_of stg (upsertOne T s) s.col1_id (hasKey_upsertOne_self T s)
    · exact ih hmem (upsertOne T a)

theorem lastVal_none (stg : List StgRec) (k : Nat) (h : lastVal stg k = none) :
    ∀ x ∈ stg, ¬x.col1_id = k := by
  induction stg with
  | nil =>
    intro x hx
    cases hx
  | cons s stg ih =>
    intro x hx
    unfold lastVal at h
    cases hl : lastVal stg k with
    | some r =>
      rw [hl] at h
      cases h
    | none =>
      rw [hl] at h
      rcases List.mem_cons.mp hx with rfl | hmem
      · intro hk
        rw [if_pos (by simpa using hk)] at h
        cases h
      · exact ih hl x hmem

theorem applyLast_nil (t : TgtRec) : applyLast [] t = t := rfl

theorem lastVal_cons_of_some (s : StgRec) (stg : List StgRec) (k : Nat) (r : StgRec)
    (h : lastVal stg k = some r) : lastVal (s :: stg) k = some r := by
  unfold lastVal
  rw [h]

theorem lastVal_cons_of_none (s : StgRec) (stg : List StgRec) (k : Nat)
    (h : lastVal stg k = none) :
    lastVal (s :: stg) k = if s.col1_id == k then some s else none := by
  unfold lastVal
  rw [h]

theorem push_eq_map_applyLast (stg : List StgRec) (T : List TgtRec)
    (h : ∀ s ∈ stg, hasKey T s.col1_id = true) :
    push_to_target_table T stg = T.map (applyLast stg) := by
  induction stg generalizing T with
  | nil =>
    have h2 : T.map (applyLast []) = T := by
      have h3 : ∀ t ∈ T, applyLast [] t = id t := fun t _ => applyLast_nil t
      rw [List.map_congr_left h3, List.map_id]
    rw [h2]
    rfl
  | cons s stg ih =>
    have hks : hasKey T s.col1_id = true := h s (List.mem_cons_self s stg)
    show push_to_target_table (upsertOne T s) stg = T.map (applyLast (s :: stg))
    unfold upsertOne
    rw [if_pos hks]
    have hkeys : ∀ x ∈ stg, hasKey (T.map (updRow s)) x.col1_id = true := by
      intro x hx
      rw [hasKey_map_updRow]
      exact h x (List.mem_cons_of_mem s hx)
    rw [ih (T.map (updRow s)) hkeys, List.map_map]
    apply List.map_congr_left
    intro t ht
    show applyLast stg (updRow s t) = applyLast (s :: stg) t
    cases hl : lastVal stg t.col1_id with
    | some r =>
      have h1 : lastVal (s :: stg) t.col1_id = some r :=
        lastVal_cons_of_some s stg t.col1_id r hl
      simp only [applyLast, updRow_id, hl, h1]
    | none =>
      have h1 := lastVal_cons_of_none s stg t.col1_id hl
      by_cases hk : (s.col1_id == t.col1_id) = true
      · rw [if_pos hk] at h1
        simp only [applyLast, updRow_id, hl, h1]
        unfold updRow
        rw [if_pos (by rw [beq_iff_eq] at hk ⊢; exact hk.symm)]
      · rw [if_neg hk] at h1
        simp only [applyLast, updRow_id, hl, h1]
        unfold updRow
        rw [if_neg (by
          rw [beq_iff_eq] at hk ⊢
          exact fun hh => hk hh.symm)]

theorem upsertOne_no_key_mem (T : List TgtRec) (s : StgRec) (k : Nat)
    (hk : ¬s.col1_id = k) (t : TgtRec) (ht : t ∈ upsertOne T s)
    (htk : t.col1_id = k) : t ∈ T := by
  unfold upsertOne at ht
  by_cases h : hasKey T s.col1_id = true
  · rw [if_pos h] at ht
    rcases List.mem_map.mp ht with ⟨t0, ht0, rfl⟩
    have ht0k : t0.col1_id = k := by
      rw [← updRow_id s t0]
      exact htk
    have heq : updRow s t0 = t0 := by
      unfold updRow
      rw [if_neg (by
        simp only [beq_iff_eq]
        intro hh
        exact hk (hh.symm.trans ht0k))]
    rw [heq]
    exact ht0
  · rw [if_neg h] at ht
    rcases List.mem_append.mp ht with h2 | h2
    · exact h2
    · have h3 : t = ⟨s.col1_id, s.col2_desc, s.col3_desc⟩ := List.mem_singleton.mp h2
      rw [h3] at htk
      exact absurd htk hk

theorem push_no_key_mem (stg : List StgRec) (k : Nat)
    (hnone : ∀ x ∈ stg, ¬x.col1_id = k) :
    ∀ T : List TgtRec, ∀ t ∈ push_to_target_table T stg, t.col1_id = k → t ∈ T := by
  induction stg with
  | nil =>
    intro T t ht _
    exact ht
  | cons s stg ih =>
    intro T t ht htk
    have h2 := ih (fun x hx => hnone x (List.mem_cons_of_mem s hx)) (upsertOne T s) t ht htk
    exact upsertOne_no_key_mem T s k (hnone s (List.mem_cons_self s stg)) t h2 htk

theorem upsertOne_key_values (T : List TgtRec) (s : StgRec) (t : TgtRec)
    (ht : t ∈ upsertOne T s) (htk : t.col1_id = s.col1_id) :
    t.col2_desc = s.col2_desc ∧ t.col3_desc = s.col3_desc := by
  unfold upsertOne at ht
  by_cases h : hasKey T s.col1_id = true
  · rw [if_pos h] at ht
    rcases List.mem_map.mp ht with ⟨t0, -, rfl⟩
    have ht0k : t0.col1_id = s.col1_id := by
      rw [← updRow_id s t0]
      exact htk
    unfold updRow
    rw [if_pos (by simpa using ht0k)]
    exact ⟨rfl, rfl⟩
  · rw [if_neg h] at ht
    rcases List.mem_append.mp ht with h2 | h2
    · exfalso
      apply h
      unfold hasKey
      exact List.any_eq_true.mpr ⟨t, h2, by simpa using htk⟩
    · have h3 : t = ⟨s.col1_id, s.col2_desc, s.col3_desc⟩ := List.mem_singleton.mp h2
      rw [h3]
      exact ⟨rfl, rfl⟩

theorem push_values (stg : List StgRec) :
    ∀ T : List TgtRec, ∀ t ∈ push_to_target_table T stg, ∀ r : StgRec,
      lastVal stg t.col1_id = some r →
        t.col2_desc = r.col2_desc ∧ t.col3_desc = r.col3_desc := by
  induction stg with
  | nil =>
    intro T t ht r hr
    cases hr
  | cons s stg ih =>
    intro T t ht r hr
    cases hl : lastVal stg t.col1_id with
    | some r2 =>
      have h1 : lastVal (s :: stg) t.col1_id = some r2 :=
        lastVal_cons_of_some s stg t.col1_id r2 hl
      rw [h1] at hr
      injection hr with hr2
      subst hr2
      exact ih (upsertOne T s) t ht r2 hl
    | none =>
      have h1 := lastVal_cons_of_none s stg t.col1_id hl
      rw [h1] at hr
      by_cases hk : (s.col1_id == t.col1_id) = true
      · rw [if_pos hk] at hr
        injection hr with hr2
        subst hr2
        have hnone : ∀ x ∈ stg, ¬x.col1_id = t.col1_id :=
          lastVal_none stg t.col1_id hl
        have htT : t ∈ upsertOne T s :=
          push_no_key_mem stg t.col1_id hnone (upsertOne T s) t ht rfl
        exact upsertOne_key_values T s t htT (beq_iff_eq.mp hk).symm
      · rw [if_neg hk] at hr
        cases hr

theorem push_idem (T : List TgtRec) (stg : List StgRec) :
    push_to_target_table (push_to_target_table T stg) stg =
      push_to_target_table T stg := by
  have hall : ∀ s ∈ stg, hasKey (push_to_target_table T stg) s.col1_id = true :=
    fun s hs => hasKey_push_mem stg s hs T
  rw [push_eq_map_applyLast stg _ hall]
  have h2 : ∀ t ∈ push_to_target_table T stg, applyLast stg t = id t := by
    intro t ht
    show applyLast stg t = t
    cases hl : lastVal stg t.col1_id with
    | none => simp only [applyLast, hl]
    | some r =>
      obtain ⟨hv2, hv3⟩ := push_values stg T t ht r hl
      simp only [applyLast, hl]
      rw [← hv2, ← hv3]
  rw [List.map_congr_left h2, List.map_id]

theorem upsertOne_keysDistinct (T : List TgtRec) (s : StgRec)
    (h : tgtKeysDistinct T) : tgtKeysDistinct (upsertOne T s) := by
  unfold upsertOne
  by_cases hk : hasKey T s.col1_id = true
  · rw [if_pos hk]
    unfold tgtKeysDistinct at *
    rw [List.pairwise_map]
    exact h.imp (fun hab => by rw [updRow_id, updRow_id]; exact hab)
  · rw [if_neg hk]
    unfold tgtKeysDistinct at *
    rw [List.pairwise_append]
    refine ⟨h, List.pairwise_singleton _ _, ?_⟩
    intro a ha b hb
    have hb2 : b = ⟨s.col1_id, s.col2_desc, s.col3_desc⟩ := List.mem_singleton.mp hb
    rw [hb2]
    show a.col1_id ≠ s.col1_id
    intro hak
    apply hk
    unfold hasKey
    exact List.any_eq_true.mpr ⟨a, ha, by simpa using hak⟩

theorem push_keysDistinct (stg : List StgRec) :
    ∀ T : List TgtRec, tgtKeysDistinct T →
      tgtKeysDistinct (push_to_target_table T stg) := by
  induction stg with
  | nil =>
    intro T h
    exact h
  | cons s stg ih =>
    intro T h
    exact ih (upsertOne T s) (upsertOne_keysDistinct T s h)

/-- C9: for every staging set and every target whose key column is unique,
push_to_target_table overwrites the tracked columns of existing rows and
inserts rows for new keys, so that afterwards the key column is still unique
(at most one row per key), every staged key is present, and re-running the
merge with the same staging set produces exactly the same target state. -/
theorem push_to_target_table_upsert (tgt : List TgtRec) (stg : List StgRec)
    (h : tgtKeysDistinct tgt) :
    tgtKeysDistinct (push_to_target_table tgt stg) ∧
      (∀ s ∈ stg, hasKey (push_to_target_table tgt stg) s.col1_id = true) ∧
      push_to_target_table (push_to_target_table tgt stg) stg =
        push_to_target_table tgt stg :=
  ⟨push_keysDistinct stg tgt h, fun s hs => hasKey_push_mem stg s hs tgt,
    push_idem tgt stg⟩

/-- Witness for C9: the merge of a two-row staging set (an update of key 1
and an insert of key 2) into a one-row target. -/
theorem push_to_target_table_upsert_witness :
    tgtKeysDistinct (push_to_target_table [⟨1, "a", "b"⟩] [⟨1, "x", "y"⟩, ⟨2, "c", "d"⟩]) ∧
      (∀ s ∈ [⟨1, "x", "y"⟩, (⟨2, "c", "d"⟩ : StgRec)],
        hasKey (push_to_target_table [⟨1, "a", "b"⟩] [⟨1, "x", "y"⟩, ⟨2, "c", "d"⟩])
          s.col1_id = true) ∧
      push_to_target_table
          (push_to_target_table [⟨1, "a", "b"⟩] [⟨1, "x", "y"⟩, ⟨2, "c", "d"⟩])
          [⟨1, "x", "y"⟩, ⟨2, "c", "d"⟩] =
        push_to_target_table [⟨1, "a", "b"⟩] [⟨1, "x", "y"⟩, ⟨2, "c", "d"⟩] :=
  push_to_target_table_upsert [⟨1, "a", "b"⟩] [⟨1, "x", "y"⟩, ⟨2, "c", "d"⟩]
    (by unfold tgtKeysDistinct; decide)

end ETL.IncLoad
